import Mathlib

set_option maxHeartbeats 1000000
set_option maxRecDepth 100000

/-!
Verification of the prime-time TCP service (`src/s1_prime_time/src/lib.rs`
and `src/traits/src/lib.rs`).

The development shallowly embeds the protocol-level functions of the
service: `is_prime`, `Request::from_bytes`, `Request::process`,
`Response::into_bytes`, and the per-connection loop `process`.  Byte
payloads are `List ℕ`; machine integers are `ℤ` with explicit saturation;
64-bit floats are modelled by the exact type `F64` below, and the two
genuinely rounding float operations of the source (`f64::sqrt` composed
with the casts around it, and the decimal-literal-to-`f64` conversion done
by the JSON library) are taken as parameters, the former constrained by an
IEEE-754-derived specification.
-/

/-- Model of a 64-bit IEEE-754 floating-point value: not-a-number, a signed
infinity, or a finite value `m * 2^e`.  Every finite double is exactly of
this form, so the arithmetic the source performs on such values
(`fract`, truncation, comparison) is modelled exactly. -/
inductive F64 where
  | nan : F64
  | inf (neg : Bool) : F64
  | finite (m : ℤ) (e : ℤ) : F64

/-- Well-formedness of an `F64`: a finite binary64 value has a mantissa of
at most 53 bits and an exponent in the binary64 range. -/
def F64.WF : F64 → Prop
  | .finite m e => m.natAbs < 2 ^ 53 ∧ -1074 ≤ e ∧ e ≤ 971
  | _ => True

/-- Rational value of a finite `F64` (0 for nan and the infinities). -/
def F64.toRat : F64 → ℚ
  | .finite m e => (m : ℚ) * 2 ^ e
  | _ => 0

/-- Truncation toward zero of the value of a finite `F64`, computed exactly
on the representation (`Int.tdiv` truncates toward zero, as the hardware
float-to-int conversion does). -/
def F64.trunc : F64 → ℤ
  | .finite m e => if 0 ≤ e then m * 2 ^ e.toNat else Int.tdiv m (2 ^ (-e).toNat)
  | _ => 0

/-- Boolean modelling of the Rust test `v.fract() != 0.0` in `is_prime`:
true when the value has a nonzero fractional part.  `fract` of nan or of an
infinity is nan, and `nan != 0.0` holds, so those map to true.  For a
finite `m * 2^e` the fractional part is zero iff `2^(-e)` divides `m`. -/
def F64.fractNeZero : F64 → Bool
  | .finite m e => if 0 ≤ e then false else decide (m % (2 ^ (-e).toNat) ≠ 0)
  | _ => true

/-- Saturating cast modelling Rust `v as i64`: truncation toward zero
clamped to `[i64::MIN, i64::MAX]`, with nan mapped to 0. -/
def F64.castI64 : F64 → ℤ
  | .nan => 0
  | .inf neg => if neg then -2 ^ 63 else 2 ^ 63 - 1
  | .finite m e =>
    let t := (F64.finite m e).trunc
    if t < -2 ^ 63 then -2 ^ 63 else if 2 ^ 63 - 1 < t then 2 ^ 63 - 1 else t

/-- The candidate divisors `(2..=lim)` iterated by `is_prime`. -/
def divisorRange (lim : ℤ) : List ℤ :=
  (List.range' 2 (lim - 1).toNat).map Int.ofNat

/-- Exact nonnegative integers representable as a binary64 float: a value
below `2^53` times a power of two. -/
def RepF64 (n : ℤ) : Prop := ∃ k j : ℕ, n = (k : ℤ) * 2 ^ j ∧ k < 2 ^ 53

/-- Specification of the composite float operation
`fun n => f64::sqrt(n as f64) as i64` appearing in `is_prime`
(`let end = f64::sqrt(number as f64) as i64`), taken as a parameter `fsq`.

IEEE-754 facts justifying the first clause, for a representable `n ≥ 2`
(`n as f64` is then exact): `Int.sqrt n` and `Int.sqrt n + 1` are below
`2^32` hence exactly representable, and correctly-rounded square root is
monotone, so the rounded root lies in `[Int.sqrt n, Int.sqrt n + 1]` and so
does its truncation; moreover the rounded root reaches `Int.sqrt n + 1`
only when `sqrt n` is within half an ulp of it, which forces `n` to be
within a few thousand of `(Int.sqrt n + 1)^2`, and in particular far above
`2 * (Int.sqrt n + 1)`.  The second clause: for any float at least `2^63`
the cast saturates to `i64::MAX = 2^63 - 1`, `(2^63 - 1) as f64` rounds to
`2^63`, and the correctly-rounded `sqrt (2^63)` truncates to
`3037000499`. -/
def FsqSpec (fsq : ℤ → ℤ) : Prop :=
  (∀ n : ℤ, 2 ≤ n → RepF64 n →
     Int.sqrt n ≤ fsq n ∧ fsq n ≤ Int.sqrt n + 1 ∧
       (fsq n = Int.sqrt n + 1 → 2 * (Int.sqrt n + 1) ≤ n)) ∧
  fsq (2 ^ 63 - 1) = 3037000499

/-- Model of `is_prime` (src/s1_prime_time/src/lib.rs, lines 212-223):
cast the float to `i64` (saturating), return false when the fractional part
is nonzero or the cast value is below 2, otherwise trial-divide by every
integer in `(2..=end)` where `end` is the truncated float square root.
Rust `%` on `i64` agrees with `Int.emod` for the nonnegative operands used
here.  The name `lim` stands for the source variable `end`, a Lean
keyword. -/
def is_prime (fsq : ℤ → ℤ) (v : F64) : Bool :=
  let number := v.castI64
  if v.fractNeZero || decide (number < 2) then false
  else
    let lim := fsq number
    !((divisorRange lim).any (fun d => number % d == 0))

/-- Concrete executable instance of the sqrt-cast parameter; the branch
values are the ones forced by `FsqSpec`, so witnesses can evaluate
`is_prime` without kernel-reducing `Int.sqrt`. -/
def fsqEx (n : ℤ) : ℤ :=
  if n = 2 ^ 63 - 1 then 3037000499
  else if n = 2 then 1
  else if n = 9 then 3
  else if n = 11 then 3
  else if n = 778013 then 882
  else Int.sqrt n

/-- The primality criterion exactly as the specification words it: zero
fractional part, truncated integer value at least 2, and no integer in
`[2, floor (sqrt (truncated value))]` divides the truncated value. -/
def C1Crit (v : F64) : Prop :=
  v.fractNeZero = false ∧ 2 ≤ v.trunc ∧
    ∀ d : ℤ, 2 ≤ d → d ≤ Int.sqrt v.trunc → ¬ d ∣ v.trunc

/-- Byte classified as JSON whitespace. -/
def isWsByte (b : ℕ) : Bool := b == 32 || b == 9 || b == 10 || b == 13

/-- Removes the maximal whitespace suffix of a byte list. -/
def stripTrailingWs (bs : List ℕ) : List ℕ := (bs.reverse.dropWhile isWsByte).reverse

/-- Skips leading JSON whitespace. -/
def skipWs (bs : List ℕ) : List ℕ := bs.dropWhile isWsByte

/-- Byte is an ASCII decimal digit. -/
def isDigit (b : ℕ) : Bool := decide (48 ≤ b ∧ b ≤ 57)

/-- Parsed JSON values.  Strings are UTF-8 byte lists; a number literal is
kept as the exact decimal `m * 10^e` it denotes. -/
inductive JVal where
  | null : JVal
  | bool (b : Bool) : JVal
  | num (m : ℤ) (e : ℤ) : JVal
  | str (s : List ℕ) : JVal
  | arr (elems : List JVal) : JVal
  | obj (members : List (List ℕ × JVal)) : JVal

/-- Value of an ASCII hex digit. -/
def hexVal (b : ℕ) : Option ℕ :=
  if 48 ≤ b ∧ b ≤ 57 then some (b - 48)
  else if 65 ≤ b ∧ b ≤ 70 then some (b - 55)
  else if 97 ≤ b ∧ b ≤ 102 then some (b - 87)
  else none

/-- UTF-8 encoding of a code point. -/
def utf8Enc (c : ℕ) : List ℕ :=
  if c < 0x80 then [c]
  else if c < 0x800 then [0xC0 + c / 0x40, 0x80 + c % 0x40]
  else if c < 0x10000 then [0xE0 + c / 0x1000, 0x80 + c / 0x40 % 0x40, 0x80 + c % 0x40]
  else [0xF0 + c / 0x40000, 0x80 + c / 0x1000 % 0x40, 0x80 + c / 0x40 % 0x40, 0x80 + c % 0x40]

/-- Single-character JSON escapes. -/
def escChar (b : ℕ) : Option ℕ :=
  if b = 34 then some 34 else if b = 92 then some 92 else if b = 47 then some 47
  else if b = 98 then some 8 else if b = 102 then some 12 else if b = 110 then some 10
  else if b = 114 then some 13 else if b = 116 then some 9 else none

/-- Body of a JSON string literal, after the opening quote: returns the
decoded UTF-8 bytes and the input following the closing quote.  Escapes are
decoded as serde_json does; raw control bytes are rejected; `\uXXXX`
escapes decode to UTF-8, with surrogate pairs combined and lone surrogates
rejected. -/
def parseStrBody : List ℕ → Option (List ℕ × List ℕ)
  | [] => none
  | 34 :: rest => some ([], rest)
  | 92 :: 117 :: h1 :: h2 :: h3 :: h4 :: rest =>
    (match hexVal h1, hexVal h2, hexVal h3, hexVal h4 with
     | some a, some b, some c, some d =>
       let cp := ((a * 16 + b) * 16 + c) * 16 + d
       if 0xD800 ≤ cp ∧ cp ≤ 0xDBFF then
         match rest with
         | 92 :: 117 :: g1 :: g2 :: g3 :: g4 :: rest2 =>
           (match hexVal g1, hexVal g2, hexVal g3, hexVal g4 with
            | some a2, some b2, some c2, some d2 =>
              let cp2 := ((a2 * 16 + b2) * 16 + c2) * 16 + d2
              if 0xDC00 ≤ cp2 ∧ cp2 ≤ 0xDFFF then
                (parseStrBody rest2).map (fun r =>
                  (utf8Enc (0x10000 + (cp - 0xD800) * 0x400 + (cp2 - 0xDC00)) ++ r.1, r.2))
              else none
            | _, _, _, _ => none)
         | _ => none
       else if 0xDC00 ≤ cp ∧ cp ≤ 0xDFFF then none
       else (parseStrBody rest).map (fun r => (utf8Enc cp ++ r.1, r.2))
     | _, _, _, _ => none)
  | 92 :: esc :: rest =>
    (match escChar esc with
     | some b => (parseStrBody rest).map (fun r => (b :: r.1, r.2))
     | none => none)
  | b :: rest =>
    if b < 32 then none else (parseStrBody rest).map (fun r => (b :: r.1, r.2))

/-- Natural number denoted by a list of ASCII digits. -/
def digitsToNat (ds : List ℕ) : ℕ := ds.foldl (fun a b => a * 10 + (b - 48)) 0

/-- Fraction part of a JSON number literal: a dot must be followed by at
least one digit. -/
def parseFrac : List ℕ → Option (List ℕ × List ℕ)
  | 46 :: r =>
    let fds := r.takeWhile isDigit
    if fds = [] then none else some (fds, r.dropWhile isDigit)
  | bs => some ([], bs)

/-- Exponent part of a JSON number literal. -/
def parseExp : List ℕ → Option (ℤ × List ℕ)
  | b :: r =>
    if b = 101 ∨ b = 69 then
      let p : Bool × List ℕ :=
        match r with
        | 43 :: r2 => (false, r2)
        | 45 :: r2 => (true, r2)
        | _ => (false, r)
      let eds := p.2.takeWhile isDigit
      if eds = [] then none
      else some ((if p.1 then -(digitsToNat eds : ℤ) else (digitsToNat eds : ℤ)), p.2.dropWhile isDigit)
    else some (0, b :: r)
  | [] => some (0, [])

/-- A JSON number literal per the JSON grammar (optional minus, integer
part without leading zeros, optional fraction, optional exponent), returned
as the pair (mantissa, decimal exponent). -/
def parseNum (bs : List ℕ) : Option ((ℤ × ℤ) × List ℕ) :=
  let p : Bool × List ℕ := match bs with | 45 :: r => (true, r) | _ => (false, bs)
  let ids := p.2.takeWhile isDigit
  let bs2 := p.2.dropWhile isDigit
  if ids = [] then none
  else if ids.head? = some 48 ∧ ids.length ≠ 1 then none
  else
    match parseFrac bs2 with
    | none => none
    | some (fds, bs3) =>
      match parseExp bs3 with
      | none => none
      | some (ex, bs4) =>
        let mag : ℤ := (digitsToNat (ids ++ fds) : ℤ)
        some (((if p.1 then -mag else mag), ex - fds.length), bs4)

mutual

/-- One JSON value: leading whitespace, then a literal, string, number,
array or object.  The fuel bounds the nesting depth; `jsonDecode` passes
input length + 1, which cannot be exhausted since every nesting level
consumes at least one byte. -/
def parseVal : ℕ → List ℕ → Option (JVal × List ℕ)
  | 0, _ => none
  | f + 1, bs =>
    match skipWs bs with
    | 110 :: 117 :: 108 :: 108 :: r => some (.null, r)
    | 116 :: 114 :: 117 :: 101 :: r => some (.bool true, r)
    | 102 :: 97 :: 108 :: 115 :: 101 :: r => some (.bool false, r)
    | 34 :: r => (parseStrBody r).map (fun p => (.str p.1, p.2))
    | 91 :: r =>
      (match skipWs r with
       | 93 :: r2 => some (.arr [], r2)
       | r2 => (parseElems f r2).map (fun p => (.arr p.1, p.2)))
    | 123 :: r =>
      (match skipWs r with
       | 125 :: r2 => some (.obj [], r2)
       | r2 => (parseMembers f r2).map (fun p => (.obj p.1, p.2)))
    | bs1 => (parseNum bs1).map (fun p => (.num p.1.1 p.1.2, p.2))

/-- Comma-separated array elements up to the closing bracket. -/
def parseElems : ℕ → List ℕ → Option (List JVal × List ℕ)
  | 0, _ => none
  | f + 1, bs =>
    match parseVal f bs with
    | none => none
    | some (v, r) =>
      match skipWs r with
      | 44 :: r2 => (parseElems f r2).map (fun p => (v :: p.1, p.2))
      | 93 :: r2 => some ([v], r2)
      | _ => none

/-- Comma-separated object members up to the closing brace. -/
def parseMembers : ℕ → List ℕ → Option (List (List ℕ × JVal) × List ℕ)
  | 0, _ => none
  | f + 1, bs =>
    match skipWs bs with
    | 34 :: r =>
      (match parseStrBody r with
       | none => none
       | some (key, r1) =>
         match skipWs r1 with
         | 58 :: r2 =>
           (match parseVal f r2 with
            | none => none
            | some (v, r3) =>
              match skipWs r3 with
              | 44 :: r4 => (parseMembers f r4).map (fun p => ((key, v) :: p.1, p.2))
              | 125 :: r4 => some ([(key, v)], r4)
              | _ => none)
         | _ => none)
    | _ => none

end

/-- Modelled from the spec: serde_json is an external dependency, not part
of this repository; `serde_json::from_slice` parses one JSON value from the
byte slice, allowing surrounding whitespace and rejecting non-whitespace
trailing bytes.  Trailing-whitespace acceptance is modelled by stripping
the whitespace suffix and then requiring the parse to consume the whole
input (a JSON value never ends in a whitespace byte, so the two
presentations agree). -/
def jsonDecode (p : List ℕ) : Option JVal :=
  let b := stripTrailingWs p
  match parseVal (b.length + 1) b with
  | some (v, []) => some v
  | _ => none

/-- First member of a JSON object with the given key. -/
def lookupFirst (ms : List (List ℕ × JVal)) (key : List ℕ) : Option JVal :=
  match ms with
  | [] => none
  | (k, v) :: rest => if k = key then some v else lookupFirst rest key

/-- ASCII bytes of a string literal. -/
def bytesOfAscii (s : String) : List ℕ := s.data.map Char.toNat

/-- Bytes of the object key `method`. -/
def methodKey : List ℕ := bytesOfAscii "method"

/-- Bytes of the object key `number`. -/
def numberKey : List ℕ := bytesOfAscii "number"

/-- Bytes of the string `isPrime`. -/
def isPrimeBytes : List ℕ := bytesOfAscii "isPrime"

/-- Modelled from the spec: serde_json deserialization of the struct
`ConformingReqObj { method: String, number: f64 }` (the serde_json crate is
external to the repository).  The payload must be one JSON object; the
field `method` must be a string and `number` a number; unknown fields are
ignored and field order is irrelevant (fields are looked up by name, the
first occurrence of a key being used).  The numeric field is kept as the
exact decimal `(mantissa, exponent)` of the literal; its conversion to
`f64` (a rounding step) is applied by `Request.process` through the
parameter `toF64`. -/
def deserializeReq (line : List ℕ) : Option ((List ℕ) × (ℤ × ℤ)) :=
  match jsonDecode line with
  | some (JVal.obj ms) =>
    (match lookupFirst ms methodKey, lookupFirst ms numberKey with
     | some (JVal.str s), some (JVal.num nm ne) => some (s, (nm, ne))
     | _, _ => none)
  | _ => none

/-- Request as in the source (lines 144-151): a conforming request with its
two fields, or a malformed one. -/
inductive Request where
  | ConformingReq (method : List ℕ) (nm : ℤ) (ne : ℤ) : Request
  | MalformedReq : Request
  deriving DecidableEq

/-- Model of `Request::from_bytes` (src lines 167-180): deserialize the
payload, then accept it only when the `method` field equals `isPrime`. -/
def Request.from_bytes (line : List ℕ) : Request :=
  match deserializeReq line with
  | some (method, n) =>
    if method = isPrimeBytes then Request.ConformingReq method n.1 n.2
    else Request.MalformedReq
  | none => Request.MalformedReq

/-- Response as in the source (lines 153-159). -/
inductive Response where
  | ConformingResp (method : List ℕ) (prime : Bool) : Response
  | MalformedResp : Response
  deriving DecidableEq

/-- ASCII hex digit (lowercase) of a value below 16. -/
def hexDigit (d : ℕ) : ℕ := if d < 10 then 48 + d else 87 + d

/-- JSON escaping of one byte as serde_json emits strings: quote and
backslash escaped, the named control escapes, `\u00XX` for the remaining
control bytes, everything else verbatim. -/
def escByte (b : ℕ) : List ℕ :=
  if b = 34 then [92, 34] else if b = 92 then [92, 92]
  else if b = 8 then [92, 98] else if b = 9 then [92, 116]
  else if b = 10 then [92, 110] else if b = 12 then [92, 102]
  else if b = 13 then [92, 114]
  else if b < 32 then [92, 117, 48, 48, hexDigit (b / 16), hexDigit (b % 16)]
  else [b]

/-- JSON string escaping over a byte list. -/
def jsonEscape (s : List ℕ) : List ℕ := s.foldr (fun b acc => escByte b ++ acc) []

/-- Modelled from the spec: `serde_json::to_string` of
`ConformingRespObj { method, prime }` — fields in declaration order, the
string JSON-escaped, the boolean rendered `true`/`false`. -/
def serializeResp (method : List ℕ) (prime : Bool) : List ℕ :=
  bytesOfAscii "\x7b\"method\":\"" ++ jsonEscape method ++ bytesOfAscii "\",\"prime\":"
    ++ (if prime then bytesOfAscii "true" else bytesOfAscii "false") ++ bytesOfAscii "\x7d"

/-- Model of `Response::into_bytes` (src lines 194-209): serialize the
conforming object and append the newline the source pushes; a malformed
response is the fixed bytes `malformed\n`. -/
def Response.into_bytes : Response → List ℕ
  | .ConformingResp method prime => serializeResp method prime ++ [10]
  | .MalformedResp => bytesOfAscii "malformed\n"

/-- Model of `Request::process` (src lines 183-191).  The parameter `toF64`
is the decimal-literal-to-`f64` conversion (a float rounding) that the JSON
library performed when it produced the `f64` stored in the request. -/
def Request.process (fsq : ℤ → ℤ) (toF64 : ℤ → ℤ → F64) : Request → Response
  | .ConformingReq method nm ne => .ConformingResp method (is_prime fsq (toF64 nm ne))
  | .MalformedReq => .MalformedResp

/-- Concrete executable instance of the decimal-to-float conversion for
witnesses: exact on integer literals with a zero decimal exponent. -/
def toF64ex (nm ne : ℤ) : F64 := if ne = 0 then F64.finite nm 0 else F64.nan

/-- The conformance criterion exactly as the specification words it: the
payload is a well-formed JSON object containing a string field `method`
equal to `isPrime` and a numeric field `number`, regardless of field order
and of any additional fields present. -/
def C2Crit (p : List ℕ) : Prop :=
  ∃ ms, jsonDecode p = some (JVal.obj ms) ∧
    lookupFirst ms methodKey = some (JVal.str isPrimeBytes) ∧
    ∃ nm ne, lookupFirst ms numberKey = some (JVal.num nm ne)

/-- One read event of the connection loop: `read_until` returning a chunk
of bytes (newline-inclusive; an empty chunk is a clean end of stream), or a
read error. -/
inductive ReadEv where
  | ok (line : List ℕ) : ReadEv
  | err : ReadEv
  deriving DecidableEq

/-- Script of one iteration of the connection loop: the read outcome and
whether the `write_all` resp. `flush` of that iteration fails. -/
structure Step where
  ev : ReadEv
  wfail : Bool
  ffail : Bool
  deriving DecidableEq

/-- The line carried by a step (empty for a read error). -/
def Step.line (s : Step) : List ℕ :=
  match s.ev with
  | .ok l => l
  | .err => []

/-- Terminal outcome of the connection loop: clean exit, or the error
returns `ServerErrorKind::ReadFail` / `ServerErrorKind::WriteFail` (the
enum lives in the `server` crate, which is not under src/; the variants
modelled are exactly the ones the source constructs). -/
inductive ConnOutcome where
  | done : ConnOutcome
  | readFail : ConnOutcome
  | writeFail : ConnOutcome
  deriving DecidableEq

/-- Observable result of one connection: the responses fully written and
flushed, in order, and the terminal outcome. -/
structure ConnTrace where
  written : List (List ℕ)
  outcome : ConnOutcome
  deriving DecidableEq

/-- Model of the connection loop `process` (src lines 76-126).  Each
iteration reads a frame (`read_until`), errors out on a read failure, exits
cleanly on a zero-length read, otherwise parses the frame, processes it,
clears the continue flag when the response is malformed, and, unless the
response is empty, writes and flushes it, erring out on a write or flush
failure.  The buffered stream and the per-iteration `line` buffer (cleared
at the end of each iteration) are abstracted into the per-iteration
script. -/
def process (fsq : ℤ → ℤ) (toF64 : ℤ → ℤ → F64) : List Step → ConnTrace
  | [] => ⟨[], .done⟩
  | s :: rest =>
    match s.ev with
    | .err => ⟨[], .readFail⟩
    | .ok line =>
      if line.length > 0 then
        let resp := Request.process fsq toF64 (Request.from_bytes line)
        let cont : Bool := match resp with
          | .ConformingResp _ _ => true
          | .MalformedResp => false
        let response := resp.into_bytes
        if response = [] then
          (if cont then process fsq toF64 rest else ⟨[], .done⟩)
        else if s.wfail then ⟨[], .writeFail⟩
        else if s.ffail then ⟨[], .writeFail⟩
        else if cont then
          let t := process fsq toF64 rest
          ⟨response :: t.written, t.outcome⟩
        else ⟨[response], .done⟩
      else ⟨[], .done⟩

/-- The connection loop without the `!response.is_empty()` guard of src
line 105; `process` is proved equal to it, showing the guard never
suppresses a write. -/
def processNoGuard (fsq : ℤ → ℤ) (toF64 : ℤ → ℤ → F64) : List Step → ConnTrace
  | [] => ⟨[], .done⟩
  | s :: rest =>
    match s.ev with
    | .err => ⟨[], .readFail⟩
    | .ok line =>
      if line.length > 0 then
        let resp := Request.process fsq toF64 (Request.from_bytes line)
        let cont : Bool := match resp with
          | .ConformingResp _ _ => true
          | .MalformedResp => false
        let response := resp.into_bytes
        if s.wfail then ⟨[], .writeFail⟩
        else if s.ffail then ⟨[], .writeFail⟩
        else if cont then
          let t := processNoGuard fsq toF64 rest
          ⟨response :: t.written, t.outcome⟩
        else ⟨[response], .done⟩
      else ⟨[], .done⟩

/-- Response bytes the stateless pipeline produces for one framed
payload. -/
def respOf (fsq : ℤ → ℤ) (toF64 : ℤ → ℤ → F64) (line : List ℕ) : List ℕ :=
  (Request.process fsq toF64 (Request.from_bytes line)).into_bytes

/-- A step that reads a nonempty conforming frame and whose write and flush
both succeed. -/
def GoodStep (s : Step) : Prop :=
  s.wfail = false ∧ s.ffail = false ∧
    ∃ l, s.ev = ReadEv.ok l ∧ l ≠ [] ∧
      ∃ m nm ne, Request.from_bytes l = Request.ConformingReq m nm ne

/-- Bytes of the example request `2`. -/
def reqBytes2 : List ℕ := bytesOfAscii "\x7b\"method\":\"isPrime\",\"number\":2\x7d"

/-- Bytes of the example request `2` with its fields in the other order. -/
def reqBytes2Inv : List ℕ := bytesOfAscii "\x7b\"number\":2,\"method\":\"isPrime\"\x7d"

/-- Characterization of `Int.sqrt` by squeezing between consecutive
squares. -/
lemma intSqrt_eq {t s : ℤ} (hs : 0 ≤ s) (h1 : s * s ≤ t) (h2 : t < (s + 1) * (s + 1)) :
    Int.sqrt t = s := by
  have h0 : 0 ≤ t := le_trans (mul_self_nonneg s) h1
  have hnat : Nat.sqrt t.toNat = s.toNat := by
    refine (Nat.eq_sqrt.mpr ⟨?_, ?_⟩).symm
    · zify [Int.toNat_of_nonneg h0, Int.toNat_of_nonneg hs]
      exact h1
    · zify [Int.toNat_of_nonneg h0, Int.toNat_of_nonneg hs]
      exact h2
  have : Int.sqrt t = (Nat.sqrt t.toNat : ℤ) := rfl
  rw [this, hnat]
  omega

/-- Lower bound transfer into `Int.sqrt`. -/
lemma le_intSqrt {a t : ℤ} (ha : 0 ≤ a) (h : a * a ≤ t) : a ≤ Int.sqrt t := by
  have h0 : 0 ≤ t := le_trans (mul_self_nonneg a) h
  have hnat : a.toNat ≤ Nat.sqrt t.toNat := by
    refine Nat.le_sqrt.mpr ?_
    zify [Int.toNat_of_nonneg h0, Int.toNat_of_nonneg ha]
    exact h
  have heq : Int.sqrt t = (Nat.sqrt t.toNat : ℤ) := rfl
  omega

/-- The square of `Int.sqrt` is below its argument. -/
lemma intSqrt_sq_le {t : ℤ} (h0 : 0 ≤ t) : Int.sqrt t * Int.sqrt t ≤ t := by
  have := Nat.sqrt_le t.toNat
  have heq : Int.sqrt t = (Nat.sqrt t.toNat : ℤ) := rfl
  rw [heq]
  zify at this
  omega

/-- The argument is below the square of the successor of `Int.sqrt`. -/
lemma lt_succ_intSqrt {t : ℤ} (h0 : 0 ≤ t) :
    t < (Int.sqrt t + 1) * (Int.sqrt t + 1) := by
  have := Nat.lt_succ_sqrt t.toNat
  have heq : Int.sqrt t = (Nat.sqrt t.toNat : ℤ) := rfl
  rw [heq]
  zify at this
  omega

/-- Membership in the divisor candidate list `(2..=lim)`. -/
lemma mem_divisorRange {lim d : ℤ} : d ∈ divisorRange lim ↔ 2 ≤ d ∧ d ≤ lim := by
  simp only [divisorRange, List.mem_map, List.mem_range'_1]
  constructor
  · rintro ⟨a, ⟨h1, h2⟩, rfl⟩
    simp only [Int.ofNat_eq_natCast]
    omega
  · rintro ⟨h1, h2⟩
    refine ⟨d.toNat, ⟨by omega, by omega⟩, ?_⟩
    simp only [Int.ofNat_eq_natCast]
    omega

/-- The trial-division loop of `is_prime` finds a divisor exactly when one
exists in `[2, lim]`. -/
lemma any_divisorRange {n lim : ℤ} :
    ((divisorRange lim).any (fun d => n % d == 0)) = true ↔
      ∃ d, 2 ≤ d ∧ d ≤ lim ∧ d ∣ n := by
  rw [List.any_eq_true]
  constructor
  · rintro ⟨d, hmem, hpred⟩
    obtain ⟨h2, hl⟩ := mem_divisorRange.mp hmem
    refine ⟨d, h2, hl, Int.dvd_of_emod_eq_zero ?_⟩
    simpa using hpred
  · rintro ⟨d, h2, hl, hdvd⟩
    refine ⟨d, mem_divisorRange.mpr ⟨h2, hl⟩, ?_⟩
    simpa using Int.emod_eq_zero_of_dvd hdvd

/-- A representable integer is never `i64::MAX` (it would be an odd number
of 53-plus bits). -/
lemma repF64_ne_i64max {n : ℤ} (h : RepF64 n) : n ≠ 2 ^ 63 - 1 := by
  rintro rfl
  obtain ⟨k, j, hkj, hk⟩ := h
  have e63 : (2:ℤ) ^ 63 = 9223372036854775808 := by norm_num
  have e53 : (2:ℕ) ^ 53 = 9007199254740992 := by norm_num
  cases j with
  | zero =>
    simp only [pow_zero, mul_one] at hkj
    omega
  | succ j' =>
    have h2 : (2:ℤ) ∣ 2 ^ 63 - 1 := by
      rw [hkj, pow_succ]
      exact ⟨(k : ℤ) * 2 ^ j', by ring⟩
    rw [e63] at h2
    omega

/-- Positive exponent case of `F64.trunc`. -/
lemma trunc_nonneg_exp {m e : ℤ} (he : 0 ≤ e) :
    (F64.finite m e).trunc = m * 2 ^ e.toNat := by
  simp [F64.trunc, he]

/-- Negative exponent case of `F64.trunc`. -/
lemma trunc_neg_exp {m e : ℤ} (he : ¬ 0 ≤ e) :
    (F64.finite m e).trunc = Int.tdiv m (2 ^ (-e).toNat) := by
  simp [F64.trunc, he]

/-- A well-formed finite float with zero fractional part and truncation at
least 2 truncates to a representable integer, and to an even one whenever
it is at least `2^63`. -/
lemma trunc_rep {m e : ℤ} (hm : m.natAbs < 2 ^ 53)
    (hfr : (F64.finite m e).fractNeZero = false)
    (ht : 2 ≤ (F64.finite m e).trunc) :
    RepF64 ((F64.finite m e).trunc) ∧
      ((2:ℤ) ^ 63 ≤ (F64.finite m e).trunc → 2 ∣ (F64.finite m e).trunc) := by
  have e53 : (2:ℕ) ^ 53 = 9007199254740992 := by norm_num
  have e63 : (2:ℤ) ^ 63 = 9223372036854775808 := by norm_num
  by_cases he : 0 ≤ e
  · rw [trunc_nonneg_exp he] at ht ⊢
    have hpow : (0:ℤ) < 2 ^ e.toNat := pow_pos (by norm_num) _
    have hmpos : 0 < m := by nlinarith
    constructor
    · refine ⟨m.toNat, e.toNat, ?_, by omega⟩
      have : ((m.toNat : ℤ)) = m := by omega
      rw [this]
    · intro hge
      rcases Nat.eq_zero_or_pos e.toNat with hj | hj
      · rw [hj] at hge
        simp only [pow_zero, mul_one] at hge
        omega
      · obtain ⟨j', hj'⟩ : ∃ j', e.toNat = j' + 1 := ⟨e.toNat - 1, by omega⟩
        rw [hj', pow_succ]
        exact ⟨m * 2 ^ j', by ring⟩
  · rw [trunc_neg_exp he] at ht ⊢
    have hfr' : m % 2 ^ (-e).toNat = 0 := by
      simp only [F64.fractNeZero, he, if_false, decide_eq_false_iff_not, not_not] at hfr
      exact hfr
    have hdvd : ((2:ℤ) ^ (-e).toNat) ∣ m := Int.dvd_of_emod_eq_zero hfr'
    have hmul : Int.tdiv m (2 ^ (-e).toNat) * 2 ^ (-e).toNat = m :=
      Int.tdiv_mul_cancel hdvd
    set t := Int.tdiv m (2 ^ (-e).toNat) with htdef
    have hk1 : 1 ≤ (-e).toNat := by omega
    have h2k : (2:ℤ) ≤ 2 ^ (-e).toNat := by
      calc (2:ℤ) = 2 ^ 1 := by norm_num
      _ ≤ 2 ^ (-e).toNat := pow_le_pow_right₀ (by norm_num) hk1
    have hmlt : m < 2 ^ 53 := by omega
    have hm53 : (2:ℤ) ^ 53 = 9007199254740992 := by norm_num
    have htlt : t < 9007199254740992 := by nlinarith
    constructor
    · refine ⟨t.toNat, 0, by push_cast; omega, by omega⟩
    · intro hge
      omega

/-- Unfolding of `is_prime` when the fractional part is zero and the cast
value is at least 2. -/
lemma is_prime_main (fsq : ℤ → ℤ) (v : F64) (hfr : v.fractNeZero = false)
    (h2 : 2 ≤ v.castI64) :
    is_prime fsq v =
      !((divisorRange (fsq v.castI64)).any (fun d => v.castI64 % d == 0)) := by
  unfold is_prime
  rw [hfr]
  simp only [Bool.false_or]
  rw [decide_eq_false (by omega : ¬ v.castI64 < 2)]
  simp

/-- `is_prime` is false as soon as the guard condition holds. -/
lemma is_prime_guard (fsq : ℤ → ℤ) (v : F64)
    (h : v.fractNeZero = true ∨ v.castI64 < 2) : is_prime fsq v = false := by
  unfold is_prime
  rcases h with h | h
  · rw [h]; simp
  · simp only [decide_eq_true h, Bool.or_true, if_true]

/-- Divisors up to `lim` exist exactly when divisors up to `Int.sqrt t`
exist, for any `lim` admitted by `FsqSpec`: an extra divisor `s + 1` pairs
with the cofactor `t / (s + 1)`, which lies in `[2, s]`. -/
lemma divisor_extend {t lim : ℤ} (ht : 2 ≤ t)
    (h1 : Int.sqrt t ≤ lim) (h2 : lim ≤ Int.sqrt t + 1)
    (h3 : lim = Int.sqrt t + 1 → 2 * (Int.sqrt t + 1) ≤ t) :
    (∃ d, 2 ≤ d ∧ d ≤ lim ∧ d ∣ t) ↔ (∃ d, 2 ≤ d ∧ d ≤ Int.sqrt t ∧ d ∣ t) := by
  set s := Int.sqrt t with hs
  have hs0 : 0 ≤ s := Int.sqrt_nonneg t
  constructor
  · rintro ⟨d, hd2, hdl, hdvd⟩
    by_cases hds : d ≤ s
    · exact ⟨d, hd2, hds, hdvd⟩
    · have hdeq : d = s + 1 := by omega
      have hlim : lim = s + 1 := by omega
      have htl : 2 * (s + 1) ≤ t := h3 hlim
      obtain ⟨q, hq⟩ := hdvd
      have hq2 : 2 ≤ q := by nlinarith
      have hlt : t < (s + 1) * (s + 1) := lt_succ_intSqrt (by omega)
      have hqs : q ≤ s := by nlinarith
      exact ⟨q, hq2, hqs, ⟨s + 1, by rw [hq, hdeq]; ring⟩⟩
  · rintro ⟨d, hd2, hds, hdvd⟩
    exact ⟨d, hd2, by omega, hdvd⟩

/-- Concrete square root: 2. -/
lemma intSqrt_two : Int.sqrt 2 = 1 := intSqrt_eq (by norm_num) (by norm_num) (by norm_num)

/-- Concrete square root: 9. -/
lemma intSqrt_nine : Int.sqrt 9 = 3 := intSqrt_eq (by norm_num) (by norm_num) (by norm_num)

/-- Concrete square root: 11. -/
lemma intSqrt_eleven : Int.sqrt 11 = 3 := intSqrt_eq (by norm_num) (by norm_num) (by norm_num)

/-- Concrete square root: 778013. -/
lemma intSqrt_778013 : Int.sqrt 778013 = 882 :=
  intSqrt_eq (by norm_num) (by norm_num) (by norm_num)

/-- Concrete square root: `i64::MAX`. -/
lemma intSqrt_i64max : Int.sqrt (2 ^ 63 - 1) = 3037000499 :=
  intSqrt_eq (by norm_num) (by norm_num) (by norm_num)

/-- The executable sqrt-cast instance satisfies its specification. -/
lemma fsqSpec_fsqEx : FsqSpec fsqEx := by
  constructor
  · intro n h2 hrep
    have hne : n ≠ 2 ^ 63 - 1 := repF64_ne_i64max hrep
    unfold fsqEx
    rw [if_neg hne]
    by_cases ha : n = 2
    · subst ha; rw [if_pos rfl, intSqrt_two]; exact ⟨by norm_num, by norm_num, by omega⟩
    · rw [if_neg ha]
      by_cases hb : n = 9
      · subst hb; rw [if_pos rfl, intSqrt_nine]; exact ⟨by norm_num, by norm_num, by omega⟩
      · rw [if_neg hb]
        by_cases hc : n = 11
        · subst hc; rw [if_pos rfl, intSqrt_eleven]
          exact ⟨by norm_num, by norm_num, by omega⟩
        · rw [if_neg hc]
          by_cases hd : n = 778013
          · subst hd; rw [if_pos rfl, intSqrt_778013]
            exact ⟨by norm_num, by norm_num, by omega⟩
          · rw [if_neg hd]; exact ⟨le_refl _, by omega, by omega⟩
  · unfold fsqEx; rw [if_pos rfl]

/-- No integer in `[2, 883]` divides the prime 778013. -/
lemma no_divisor_778013 : ∀ d : ℤ, 2 ≤ d → d ≤ 883 → ¬ d ∣ 778013 := by
  intro d h2 h883 hdvd
  have hp : Nat.Prime 778013 := by norm_num
  have hd' : (d.toNat : ℤ) = d := by omega
  have hdc : (d.toNat : ℤ) ∣ ((778013 : ℕ) : ℤ) := by rw [hd']; exact_mod_cast hdvd
  have hnat : d.toNat ∣ 778013 := by exact_mod_cast hdc
  rcases hp.eq_one_or_self_of_dvd _ hnat with h | h <;> omega

/-- No integer in `[2, 4]` divides the prime 11. -/
lemma no_divisor_11 : ∀ d : ℤ, 2 ≤ d → d ≤ 4 → ¬ d ∣ 11 := by
  intro d h2 h4 hdvd
  have hp : Nat.Prime 11 := by norm_num
  have hd' : (d.toNat : ℤ) = d := by omega
  have hdc : (d.toNat : ℤ) ∣ ((11 : ℕ) : ℤ) := by rw [hd']; exact_mod_cast hdvd
  have hnat : d.toNat ∣ 11 := by exact_mod_cast hdc
  rcases hp.eq_one_or_self_of_dvd _ hnat with h | h <;> omega

/-- 7 divides `i64::MAX`. -/
lemma seven_dvd_i64max : (7:ℤ) ∣ 2 ^ 63 - 1 := ⟨1317624576693539401, by norm_num⟩

/-- Reduction of the saturating cast on a finite value. -/
lemma castI64_finite (m e : ℤ) :
    (F64.finite m e).castI64 =
      if (F64.finite m e).trunc < -2 ^ 63 then -2 ^ 63
      else if 2 ^ 63 - 1 < (F64.finite m e).trunc then 2 ^ 63 - 1
      else (F64.finite m e).trunc := rfl

/-- C1: for every 64-bit float `v`, `is_prime v` is true iff `v` has zero
fractional part, its truncated integer value is at least 2, and no integer
in `[2, floor (sqrt (truncated value))]` divides it; in particular
`is_prime` is false below 2 and on non-integral values, and
`is_prime 2 = true`, `is_prime 9 = false`, `is_prime 11 = true`,
`is_prime 778013 = true`.  The float square root of the source is any
function satisfying `FsqSpec`. -/
theorem c1_is_prime_spec (fsq : ℤ → ℤ) (hfsq : FsqSpec fsq) :
    (∀ v : F64, v.WF → (is_prime fsq v = true ↔ C1Crit v)) ∧
    is_prime fsq (F64.finite 2 0) = true ∧
    is_prime fsq (F64.finite 9 0) = false ∧
    is_prime fsq (F64.finite 11 0) = true ∧
    is_prime fsq (F64.finite 778013 0) = true := by
  have e63 : (2:ℤ) ^ 63 = 9223372036854775808 := by norm_num
  have hmain : ∀ v : F64, v.WF → (is_prime fsq v = true ↔ C1Crit v) := by
    intro v hWF
    cases v with
    | nan =>
      rw [is_prime_guard fsq F64.nan (Or.inl rfl)]
      refine iff_of_false (by simp) ?_
      intro h
      exact absurd h.1 (by simp [F64.fractNeZero])
    | inf b =>
      rw [is_prime_guard fsq (F64.inf b) (Or.inl rfl)]
      refine iff_of_false (by simp) ?_
      intro h
      exact absurd h.1 (by simp [F64.fractNeZero])
    | finite m e =>
      by_cases hfr : (F64.finite m e).fractNeZero = true
      · rw [is_prime_guard fsq (F64.finite m e) (Or.inl hfr)]
        refine iff_of_false (by simp) ?_
        intro h
        have := h.1
        rw [hfr] at this
        exact Bool.noConfusion this
      · rw [Bool.not_eq_true] at hfr
        by_cases ht2 : (F64.finite m e).trunc < 2
        · have hc : (F64.finite m e).castI64 < 2 := by
            rw [castI64_finite]; split_ifs <;> omega
          rw [is_prime_guard fsq (F64.finite m e) (Or.inr hc)]
          refine iff_of_false (by simp) ?_
          intro h
          have := h.2.1
          omega
        · push_neg at ht2
          obtain ⟨hrep, heven⟩ := trunc_rep hWF.1 hfr ht2
          by_cases hsat : 2 ^ 63 ≤ (F64.finite m e).trunc
          · have hc : (F64.finite m e).castI64 = 2 ^ 63 - 1 := by
              rw [castI64_finite]; split_ifs <;> omega
            rw [is_prime_main fsq (F64.finite m e) hfr (by omega), hc, hfsq.2]
            have hany : ((divisorRange 3037000499).any
                (fun d => ((2:ℤ) ^ 63 - 1) % d == 0)) = true :=
              any_divisorRange.mpr ⟨7, by norm_num, by norm_num, seven_dvd_i64max⟩
            refine iff_of_false (by rw [hany]; simp) ?_
            rintro ⟨_, _, hnd⟩
            exact hnd 2 (by norm_num) (le_intSqrt (by norm_num) (by omega)) (heven hsat)
          · have hc : (F64.finite m e).castI64 = (F64.finite m e).trunc := by
              rw [castI64_finite]; split_ifs <;> omega
            rw [is_prime_main fsq (F64.finite m e) hfr (by omega), hc]
            obtain ⟨hl1, hl2, hl3⟩ := hfsq.1 _ ht2 hrep
            simp only [Bool.not_eq_true']
            constructor
            · intro hany
              refine ⟨hfr, ht2, fun d h2 hds hdvd => ?_⟩
              have hex : ((divisorRange (fsq (F64.finite m e).trunc)).any
                  (fun d => (F64.finite m e).trunc % d == 0)) = true :=
                any_divisorRange.mpr
                  ((divisor_extend ht2 hl1 hl2 hl3).mpr ⟨d, h2, hds, hdvd⟩)
              rw [hany] at hex
              exact Bool.noConfusion hex
            · rintro ⟨_, _, hnd⟩
              by_contra hany
              rw [Bool.not_eq_false] at hany
              obtain ⟨d, h2, hds, hdvd⟩ :=
                (divisor_extend ht2 hl1 hl2 hl3).mp (any_divisorRange.mp hany)
              exact hnd d h2 hds hdvd
  have hWF2 : (F64.finite 2 0).WF := ⟨by norm_num, by norm_num, by norm_num⟩
  have hWF9 : (F64.finite 9 0).WF := ⟨by norm_num, by norm_num, by norm_num⟩
  have hWF11 : (F64.finite 11 0).WF := ⟨by norm_num, by norm_num, by norm_num⟩
  have hWF778013 : (F64.finite 778013 0).WF := ⟨by norm_num, by norm_num, by norm_num⟩
  have htr2 : (F64.finite 2 0).trunc = 2 := by simp [F64.trunc]
  have htr9 : (F64.finite 9 0).trunc = 9 := by simp [F64.trunc]
  have htr11 : (F64.finite 11 0).trunc = 11 := by simp [F64.trunc]
  have htr778013 : (F64.finite 778013 0).trunc = 778013 := by simp [F64.trunc]
  refine ⟨hmain, ?_, ?_, ?_, ?_⟩
  · refine (hmain _ hWF2).mpr ⟨rfl, by rw [htr2], ?_⟩
    intro d h2 hds
    rw [htr2, intSqrt_two] at hds
    omega
  · by_contra hb
    rw [Bool.not_eq_false] at hb
    obtain ⟨_, _, hnd⟩ := (hmain _ hWF9).mp hb
    refine hnd 3 (by norm_num) ?_ ?_
    · rw [htr9, intSqrt_nine]
    · rw [htr9]; norm_num
  · refine (hmain _ hWF11).mpr ⟨rfl, by rw [htr11]; norm_num, ?_⟩
    intro d h2 hds hdvd
    rw [htr11, intSqrt_eleven] at hds
    rw [htr11] at hdvd
    exact no_divisor_11 d h2 (by omega) hdvd
  · refine (hmain _ hWF778013).mpr ⟨rfl, by rw [htr778013]; norm_num, ?_⟩
    intro d h2 hds hdvd
    rw [htr778013, intSqrt_778013] at hds
    rw [htr778013] at hdvd
    exact no_divisor_778013 d h2 (by omega) hdvd

/-- The truncation of a finite float with zero fractional part is its exact
value. -/
lemma toRat_trunc {m e : ℤ} (hfr : (F64.finite m e).fractNeZero = false) :
    (((F64.finite m e).trunc : ℤ) : ℚ) = (F64.finite m e).toRat := by
  by_cases he : 0 ≤ e
  · rw [trunc_nonneg_exp he]
    simp only [F64.toRat]
    push_cast
    congr 1
    rw [← zpow_natCast]
    congr 1
    omega
  · rw [trunc_neg_exp he]
    have hfr' : m % 2 ^ (-e).toNat = 0 := by
      simp only [F64.fractNeZero, he, if_false, decide_eq_false_iff_not, not_not] at hfr
      exact hfr
    have hmul : Int.tdiv m (2 ^ (-e).toNat) * 2 ^ (-e).toNat = m :=
      Int.tdiv_mul_cancel (Int.dvd_of_emod_eq_zero hfr')
    simp only [F64.toRat]
    have h2 : ((2:ℚ) ^ (e : ℤ)) = ((2:ℚ) ^ ((-e).toNat : ℕ))⁻¹ := by
      rw [← zpow_natCast (2:ℚ) (-e).toNat, ← zpow_neg]
      congr 1
      omega
    rw [h2, ← div_eq_mul_inv, eq_div_iff (by positivity)]
    exact_mod_cast congrArg (fun z : ℤ => (z : ℚ)) hmul

/-- C9: `is_prime` is total.  Every divisor the modulo test uses is at
least 2 (so never zero); nan and the infinities (nonzero fractional part)
return false instead of failing; and the float-to-integer cast is
saturating, never leaving the `i64` range. -/
theorem c9_is_prime_total (fsq : ℤ → ℤ) :
    (∀ lim d, d ∈ divisorRange lim → 2 ≤ d) ∧
    is_prime fsq F64.nan = false ∧
    (∀ b, is_prime fsq (F64.inf b) = false) ∧
    (∀ v : F64, -2 ^ 63 ≤ v.castI64 ∧ v.castI64 ≤ 2 ^ 63 - 1) := by
  refine ⟨?_, ?_, ?_, ?_⟩
  · intro lim d hd
    exact (mem_divisorRange.mp hd).1
  · exact is_prime_guard fsq F64.nan (Or.inl rfl)
  · intro b
    exact is_prime_guard fsq (F64.inf b) (Or.inl rfl)
  · intro v
    have e63 : (2:ℤ) ^ 63 = 9223372036854775808 := by norm_num
    cases v with
    | nan =>
      constructor <;> simp [F64.castI64]
    | inf b =>
      cases b <;> constructor <;> simp [F64.castI64]
    | finite m e =>
      rw [castI64_finite]
      constructor <;> split_ifs <;> omega

/-- C9 witness: concrete instances of the conjuncts with hypotheses. -/
theorem c9_witness : (2:ℤ) ≤ 2 ∧ is_prime fsqEx F64.nan = false :=
  ⟨(c9_is_prime_total fsqEx).1 3 2 (by decide), (c9_is_prime_total fsqEx).2.1⟩

/-- C10: a float with zero fractional part and value at least `2^63` casts
(saturating) to `i64::MAX`, and `is_prime` on it equals the trial-division
result for `i64::MAX`, which has the divisor 7 inside the tested range, so
the result is false. -/
theorem c10_saturating_cast (fsq : ℤ → ℤ) (v : F64) (hfsq : FsqSpec fsq)
    (hWF : v.WF) (hfr : v.fractNeZero = false)
    (hge : (2:ℚ) ^ (63:ℕ) ≤ v.toRat) :
    v.castI64 = 2 ^ 63 - 1 ∧ is_prime fsq v = false ∧
      ∃ d, 2 ≤ d ∧ d ≤ fsq (2 ^ 63 - 1) ∧ ((2:ℤ) ^ 63 - 1) % d = 0 := by
  have e63 : (2:ℤ) ^ 63 = 9223372036854775808 := by norm_num
  cases v with
  | nan => exact Bool.noConfusion hfr
  | inf b => exact Bool.noConfusion hfr
  | finite m e =>
    have hgeZ : (2:ℤ) ^ 63 ≤ (F64.finite m e).trunc := by
      have hcast : (((F64.finite m e).trunc : ℤ) : ℚ) = (F64.finite m e).toRat :=
        toRat_trunc hfr
      have : (((2:ℤ) ^ 63 : ℤ) : ℚ) ≤ (((F64.finite m e).trunc : ℤ) : ℚ) := by
        rw [hcast]
        calc (((2:ℤ) ^ 63 : ℤ) : ℚ) = (2:ℚ) ^ (63:ℕ) := by push_cast; ring
        _ ≤ (F64.finite m e).toRat := hge
      exact_mod_cast this
    have hc : (F64.finite m e).castI64 = 2 ^ 63 - 1 := by
      rw [castI64_finite]; split_ifs <;> omega
    refine ⟨hc, ?_, ?_⟩
    · rw [is_prime_main fsq (F64.finite m e) hfr (by omega), hc, hfsq.2]
      have hany : ((divisorRange 3037000499).any
          (fun d => ((2:ℤ) ^ 63 - 1) % d == 0)) = true :=
        any_divisorRange.mpr ⟨7, by norm_num, by norm_num, seven_dvd_i64max⟩
      rw [hany]
      rfl
    · refine ⟨7, by norm_num, by rw [hfsq.2]; norm_num, ?_⟩
      exact Int.emod_eq_zero_of_dvd seven_dvd_i64max

/-- C10 witness: the float `2^63` itself. -/
theorem c10_witness :
    (F64.finite 1 63).castI64 = 2 ^ 63 - 1 ∧
    is_prime fsqEx (F64.finite 1 63) = false ∧
    ∃ d, 2 ≤ d ∧ d ≤ fsqEx (2 ^ 63 - 1) ∧ ((2:ℤ) ^ 63 - 1) % d = 0 :=
  c10_saturating_cast fsqEx (F64.finite 1 63) fsqSpec_fsqEx
    ⟨by norm_num, by norm_num, by norm_num⟩ rfl
    (by simp [F64.toRat]; norm_num)

/-- C1 witness: the conclusion of `c1_is_prime_spec` at the executable
sqrt-cast instance. -/
theorem c1_witness : is_prime fsqEx (F64.finite 11 0) = true :=
  (c1_is_prime_spec fsqEx fsqSpec_fsqEx).2.2.2.1

/-- C6: appending the newline delimiter retained by the framing never
changes the parse, because the delimiter only extends the whitespace suffix
stripped before parsing. -/
theorem c6_newline_transparent : ∀ p : List ℕ,
    Request.from_bytes (p ++ [10]) = Request.from_bytes p := by
  intro p
  have hstrip : stripTrailingWs (p ++ [10]) = stripTrailingWs p := by
    unfold stripTrailingWs
    rw [List.reverse_append]
    simp [List.dropWhile_cons, isWsByte]
  unfold Request.from_bytes deserializeReq jsonDecode
  rw [hstrip]

/-- C4: the serialized conforming responses are exactly the specified byte
strings with a trailing newline, the malformed response is exactly the ten
bytes `malformed\n`, and every response produced from a parsed payload that
is conforming carries the method `isPrime`. -/
theorem c4_into_bytes (fsq : ℤ → ℤ) (toF64 : ℤ → ℤ → F64) :
    Response.into_bytes (Response.ConformingResp isPrimeBytes true) =
      bytesOfAscii "\x7b\"method\":\"isPrime\",\"prime\":true\x7d\n" ∧
    Response.into_bytes (Response.ConformingResp isPrimeBytes false) =
      bytesOfAscii "\x7b\"method\":\"isPrime\",\"prime\":false\x7d\n" ∧
    Response.into_bytes Response.MalformedResp = bytesOfAscii "malformed\n" ∧
    (Response.into_bytes Response.MalformedResp).length = 10 ∧
    ∀ p m b, Request.process fsq toF64 (Request.from_bytes p) =
        Response.ConformingResp m b → m = isPrimeBytes := by
  refine ⟨by decide, by decide, by decide, by decide, ?_⟩
  intro p m b h
  unfold Request.from_bytes at h
  rcases hd : deserializeReq p with _ | ⟨mth, num⟩
  · rw [hd] at h
    simp [Request.process] at h
  · rw [hd] at h
    by_cases hm : mth = isPrimeBytes
    · subst hm
      simp [Request.process] at h
      exact h.1.symm
    · simp [Request.process, hm] at h

/-- C4 witness: the pipeline on the example request, and the method-field
conclusion discharged at it. -/
theorem c4_witness :
    Request.process fsqEx toF64ex (Request.from_bytes reqBytes2) =
      Response.ConformingResp isPrimeBytes true ∧ isPrimeBytes = isPrimeBytes :=
  ⟨by decide, (c4_into_bytes fsqEx toF64ex).2.2.2.2 reqBytes2 isPrimeBytes true (by decide)⟩

/-- C2: a payload parses as conforming exactly when it is a well-formed
JSON object whose `method` field is the string `isPrime` and whose `number`
field is a number, independently of field order and extra fields; every
other payload is malformed, so the two variants partition all payloads.
The two concrete conjuncts show the two field orders of the example
request parse identically. -/
theorem c2_from_bytes_criterion :
    (∀ p : List ℕ,
      ((∃ m nm ne, Request.from_bytes p = Request.ConformingReq m nm ne) ↔ C2Crit p) ∧
      (Request.from_bytes p = Request.MalformedReq ↔ ¬ C2Crit p)) ∧
    Request.from_bytes reqBytes2 = Request.ConformingReq isPrimeBytes 2 0 ∧
    Request.from_bytes reqBytes2Inv = Request.ConformingReq isPrimeBytes 2 0 := by
  have hfwd : ∀ p : List ℕ,
      (∃ m nm ne, Request.from_bytes p = Request.ConformingReq m nm ne) ↔ C2Crit p := by
    intro p
    constructor
    · rintro ⟨m, nm, ne, hm⟩
      unfold Request.from_bytes deserializeReq at hm
      rcases hjd : jsonDecode p with _ | v
      · rw [hjd] at hm
        simp at hm
      · rw [hjd] at hm
        cases v with
        | obj ms =>
          dsimp only at hm
          rcases hl1 : lookupFirst ms methodKey with _ | w1
          · rw [hl1] at hm; simp at hm
          · rcases hl2 : lookupFirst ms numberKey with _ | w2
            · rw [hl1, hl2] at hm
              cases w1 <;> simp at hm
            · rw [hl1, hl2] at hm
              cases w1 <;> cases w2 <;> dsimp only at hm <;>
                first
                | exact Request.noConfusion hm
                | skip
              rename_i s qm qe
              by_cases hs : s = isPrimeBytes
              · exact ⟨ms, hjd, by rw [hl1, hs], qm, qe, hl2⟩
              · rw [if_neg hs] at hm
                exact Request.noConfusion hm
        | null => simp at hm
        | bool b => simp at hm
        | num a b => simp at hm
        | str s => simp at hm
        | arr xs => simp at hm
    · rintro ⟨ms, hjd, hmeth, nm, ne, hnum⟩
      refine ⟨isPrimeBytes, nm, ne, ?_⟩
      unfold Request.from_bytes deserializeReq
      rw [hjd]
      dsimp only
      rw [hmeth, hnum]
      simp
  have htotal : ∀ p : List ℕ,
      (∃ m nm ne, Request.from_bytes p = Request.ConformingReq m nm ne) ∨
        Request.from_bytes p = Request.MalformedReq := by
    intro p
    rcases h : Request.from_bytes p with ⟨m, nm, ne⟩ | _
    · exact Or.inl ⟨m, nm, ne, rfl⟩
    · exact Or.inr rfl
  refine ⟨fun p => ⟨hfwd p, ?_, ?_⟩, by decide, by decide⟩
  · intro hmal hcrit
    obtain ⟨m, nm, ne, hconf⟩ := (hfwd p).mpr hcrit
    rw [hconf] at hmal
    exact Request.noConfusion hmal
  · intro hncrit
    rcases htotal p with hconf | hmal
    · exact absurd ((hfwd p).mp hconf) hncrit
    · exact hmal

/-- A response serialization is never empty. -/
lemma into_bytes_ne_nil (r : Response) : r.into_bytes ≠ [] := by
  cases r with
  | ConformingResp m p =>
    intro h
    simpa [Response.into_bytes] using congrArg List.length h
  | MalformedResp => decide

/-- A response serialization ends in the newline byte. -/
lemma into_bytes_newline (r : Response) : ∃ ys, r.into_bytes = ys ++ [10] := by
  cases r with
  | ConformingResp m p => exact ⟨serializeResp m p, rfl⟩
  | MalformedResp => exact ⟨bytesOfAscii "malformed", by decide⟩

/-- Loop step on a read error. -/
lemma process_err (fsq : ℤ → ℤ) (toF64 : ℤ → ℤ → F64) (s : Step) (rest : List Step)
    (h : s.ev = ReadEv.err) :
    process fsq toF64 (s :: rest) = ⟨[], ConnOutcome.readFail⟩ := by
  simp only [process, h]

/-- Loop step on a zero-length read. -/
lemma process_eof (fsq : ℤ → ℤ) (toF64 : ℤ → ℤ → F64) (s : Step) (rest : List Step)
    (h : s.ev = ReadEv.ok []) :
    process fsq toF64 (s :: rest) = ⟨[], ConnOutcome.done⟩ := by
  simp only [process, h]
  simp

/-- Loop step on a conforming frame with successful write and flush. -/
lemma process_ok_conf (fsq : ℤ → ℤ) (toF64 : ℤ → ℤ → F64) (s : Step) (rest : List Step)
    (line m : List ℕ) (nm ne : ℤ) (hev : s.ev = ReadEv.ok line) (hne : line ≠ [])
    (hconf : Request.from_bytes line = Request.ConformingReq m nm ne)
    (hw : s.wfail = false) (hf : s.ffail = false) :
    process fsq toF64 (s :: rest) =
      ⟨respOf fsq toF64 line :: (process fsq toF64 rest).written,
        (process fsq toF64 rest).outcome⟩ := by
  have hlen : line.length > 0 := List.length_pos.mpr hne
  simp only [process, hev, hlen, if_true, hconf, Request.process, hw, hf,
    Bool.false_eq_true, if_false, respOf]
  rw [if_neg (into_bytes_ne_nil (Response.ConformingResp m (is_prime fsq (toF64 nm ne))))]

/-- Loop step on a malformed frame with successful write and flush: the
malformed response is written and the loop stops. -/
lemma process_ok_mal (fsq : ℤ → ℤ) (toF64 : ℤ → ℤ → F64) (s : Step) (rest : List Step)
    (line : List ℕ) (hev : s.ev = ReadEv.ok line) (hne : line ≠ [])
    (hmal : Request.from_bytes line = Request.MalformedReq)
    (hw : s.wfail = false) (hf : s.ffail = false) :
    process fsq toF64 (s :: rest) =
      ⟨[Response.MalformedResp.into_bytes], ConnOutcome.done⟩ := by
  have hlen : line.length > 0 := List.length_pos.mpr hne
  simp only [process, hev, hlen, if_true, hmal, Request.process, hw, hf,
    Bool.false_eq_true, if_false]
  rw [if_neg (into_bytes_ne_nil Response.MalformedResp)]

/-- Loop step on a nonempty frame whose write or flush fails. -/
lemma process_ok_wfail (fsq : ℤ → ℤ) (toF64 : ℤ → ℤ → F64) (s : Step) (rest : List Step)
    (line : List ℕ) (hev : s.ev = ReadEv.ok line) (hne : line ≠ [])
    (hwf : s.wfail = true ∨ s.ffail = true) :
    process fsq toF64 (s :: rest) = ⟨[], ConnOutcome.writeFail⟩ := by
  have hlen : line.length > 0 := List.length_pos.mpr hne
  simp only [process, hev, hlen, if_true]
  rw [if_neg (into_bytes_ne_nil (Request.process fsq toF64 (Request.from_bytes line)))]
  rcases hwf with hwf | hwf
  · rw [hwf]
    simp
  · rw [hwf]
    simp

/-- A prefix of good steps contributes exactly one response per step, in
order, and the loop continues into the remaining script. -/
lemma process_good_append (fsq : ℤ → ℤ) (toF64 : ℤ → ℤ → F64)
    (pre tail : List Step) (h : ∀ s ∈ pre, GoodStep s) :
    process fsq toF64 (pre ++ tail) =
      ⟨pre.map (fun s => respOf fsq toF64 s.line) ++ (process fsq toF64 tail).written,
        (process fsq toF64 tail).outcome⟩ := by
  induction pre with
  | nil => simp
  | cons s pre ih =>
    obtain ⟨hw, hf, l, hev, hne, m, nm, ne, hconf⟩ := h s (by simp)
    have hline : s.line = l := by simp [Step.line, hev]
    rw [List.cons_append,
      process_ok_conf fsq toF64 s (pre ++ tail) l m nm ne hev hne hconf hw hf,
      ih (fun t ht => h t (by simp [ht]))]
    simp [hline]

/-- At most one response is written per step of the script. -/
lemma process_written_le (fsq : ℤ → ℤ) (toF64 : ℤ → ℤ → F64) :
    ∀ steps : List Step, (process fsq toF64 steps).written.length ≤ steps.length := by
  intro steps
  induction steps with
  | nil => simp [process]
  | cons s rest ih =>
    cases hev : s.ev with
    | err =>
      rw [process_err fsq toF64 s rest hev]
      simp
    | ok line =>
      by_cases hne : line = []
      · rw [process_eof fsq toF64 s rest (by rw [hev, hne])]
        simp
      · by_cases hwf : s.wfail = true ∨ s.ffail = true
        · rw [process_ok_wfail fsq toF64 s rest line hev hne hwf]
          simp
        · have hw : s.wfail = false := by
            cases h : s.wfail
            · rfl
            · exact absurd (Or.inl h) hwf
          have hf : s.ffail = false := by
            cases h : s.ffail
            · rfl
            · exact absurd (Or.inr h) hwf
          rcases hb : Request.from_bytes line with ⟨m, nm, ne⟩ | _
          · rw [process_ok_conf fsq toF64 s rest line m nm ne hev hne hb hw hf]
            simpa using ih
          · rw [process_ok_mal fsq toF64 s rest line hev hne hb hw hf]
            simp

/-- The emptiness guard of the loop is inert: the loop equals its
guard-free variant. -/
lemma process_noGuard_eq (fsq : ℤ → ℤ) (toF64 : ℤ → ℤ → F64) :
    ∀ steps : List Step, process fsq toF64 steps = processNoGuard fsq toF64 steps := by
  intro steps
  induction steps with
  | nil => rfl
  | cons s rest ih =>
    cases hev : s.ev with
    | err => simp only [process, processNoGuard, hev]
    | ok line =>
      simp only [process, processNoGuard, hev]
      by_cases hlen : line.length > 0
      · rw [if_pos hlen, if_pos hlen,
          if_neg (into_bytes_ne_nil (Request.process fsq toF64 (Request.from_bytes line))),
          ih]
      · rw [if_neg hlen, if_neg hlen]

/-- C3: after any prefix of conforming frames, a frame parsing as malformed
makes the loop write the fixed malformed response exactly once and
terminate cleanly, independently of anything still buffered (`rest` is
arbitrary and unread); moreover, across every script, at most one response
is written per frame read. -/
theorem c3_malformed_disconnect :
    (∀ (fsq : ℤ → ℤ) (toF64 : ℤ → ℤ → F64) (pre : List Step) (s : Step)
       (rest : List Step) (line : List ℕ),
       (∀ t ∈ pre, GoodStep t) → s.ev = ReadEv.ok line → line ≠ [] →
       Request.from_bytes line = Request.MalformedReq →
       s.wfail = false → s.ffail = false →
       process fsq toF64 (pre ++ s :: rest) =
         ⟨pre.map (fun t => respOf fsq toF64 t.line) ++
            [Response.MalformedResp.into_bytes], ConnOutcome.done⟩) ∧
    (∀ (fsq : ℤ → ℤ) (toF64 : ℤ → ℤ → F64) (steps : List Step),
       (process fsq toF64 steps).written.length ≤ steps.length) := by
  constructor
  · intro fsq toF64 pre s rest line hpre hev hne hmal hw hf
    rw [process_good_append fsq toF64 pre (s :: rest) hpre,
      process_ok_mal fsq toF64 s rest line hev hne hmal hw hf]
  · intro fsq toF64
    exact process_written_le fsq toF64

/-- C3 witness: a single malformed frame (the byte `f`) on an empty
prefix. -/
theorem c3_witness :
    process fsqEx toF64ex ([] ++ (⟨ReadEv.ok [102], false, false⟩ : Step) :: []) =
      ⟨([] : List Step).map (fun t => respOf fsqEx toF64ex t.line) ++
         [Response.MalformedResp.into_bytes], ConnOutcome.done⟩ :=
  c3_malformed_disconnect.1 fsqEx toF64ex [] ⟨ReadEv.ok [102], false, false⟩ [] [102]
    (by simp) rfl (by decide) (by decide) rfl rfl

/-- C5: after any prefix of conforming frames, a read error terminates the
loop with the read-failure outcome and no response for that iteration, and
a write or flush error terminates it with the write-failure outcome; in
both cases nothing after the failing iteration is read or written (`rest`
is arbitrary and contributes nothing). -/
theorem c5_io_errors :
    ∀ (fsq : ℤ → ℤ) (toF64 : ℤ → ℤ → F64) (pre : List Step) (s : Step)
      (rest : List Step), (∀ t ∈ pre, GoodStep t) →
      ((s.ev = ReadEv.err →
        process fsq toF64 (pre ++ s :: rest) =
          ⟨pre.map (fun t => respOf fsq toF64 t.line), ConnOutcome.readFail⟩) ∧
       (∀ line, s.ev = ReadEv.ok line → line ≠ [] →
        s.wfail = true ∨ s.ffail = true →
        process fsq toF64 (pre ++ s :: rest) =
          ⟨pre.map (fun t => respOf fsq toF64 t.line), ConnOutcome.writeFail⟩)) := by
  intro fsq toF64 pre s rest hpre
  constructor
  · intro hev
    rw [process_good_append fsq toF64 pre (s :: rest) hpre,
      process_err fsq toF64 s rest hev]
    simp
  · intro line hev hne hwf
    rw [process_good_append fsq toF64 pre (s :: rest) hpre,
      process_ok_wfail fsq toF64 s rest line hev hne hwf]
    simp

/-- C5 witness: a read error and a write failure, each on an empty
prefix. -/
theorem c5_witness :
    process fsqEx toF64ex [⟨ReadEv.err, false, false⟩] = ⟨[], ConnOutcome.readFail⟩ ∧
    process fsqEx toF64ex [⟨ReadEv.ok reqBytes2, true, false⟩] =
      ⟨[], ConnOutcome.writeFail⟩ := by
  constructor
  · have h := (c5_io_errors fsqEx toF64ex [] ⟨ReadEv.err, false, false⟩ [] (by simp)).1 rfl
    simpa using h
  · have h := (c5_io_errors fsqEx toF64ex [] ⟨ReadEv.ok reqBytes2, true, false⟩ []
      (by simp)).2 reqBytes2 rfl (by decide) (Or.inl rfl)
    simpa using h

/-- C7: the request-to-response pipeline is deterministic and stateless:
in any two connection runs over conforming scripts, frames carrying equal
payload bytes — at any positions, on the same or different connections —
produce equal response bytes, independently of anything processed before
or after. -/
theorem c7_stateless_deterministic :
    ∀ (fsq : ℤ → ℤ) (toF64 : ℤ → ℤ → F64) (s1 s2 : List Step),
      (∀ t ∈ s1, GoodStep t) → (∀ t ∈ s2, GoodStep t) →
      ∀ i j (hi : i < s1.length) (hj : j < s2.length),
        (s1.get ⟨i, hi⟩).line = (s2.get ⟨j, hj⟩).line →
        (process fsq toF64 s1).written[i]? = (process fsq toF64 s2).written[j]? := by
  intro fsq toF64 s1 s2 h1 h2 i j hi hj hline
  have e1 : process fsq toF64 s1 =
      ⟨s1.map (fun t => respOf fsq toF64 t.line), ConnOutcome.done⟩ := by
    have h := process_good_append fsq toF64 s1 [] h1
    simpa [process] using h
  have e2 : process fsq toF64 s2 =
      ⟨s2.map (fun t => respOf fsq toF64 t.line), ConnOutcome.done⟩ := by
    have h := process_good_append fsq toF64 s2 [] h2
    simpa [process] using h
  have hline2 : s1[i].line = s2[j].line := by simpa using hline
  rw [e1, e2]
  simp only [List.getElem?_map, List.getElem?_eq_getElem hi, List.getElem?_eq_getElem hj]
  simp [hline2]

/-- C7 witness: the same payload at position 0 of two one-frame scripts. -/
theorem c7_witness :
    (process fsqEx toF64ex [⟨ReadEv.ok reqBytes2, false, false⟩]).written[0]? =
      (process fsqEx toF64ex [⟨ReadEv.ok reqBytes2, false, false⟩]).written[0]? :=
  c7_stateless_deterministic fsqEx toF64ex
    [⟨ReadEv.ok reqBytes2, false, false⟩] [⟨ReadEv.ok reqBytes2, false, false⟩]
    (fun t ht => by
      rw [List.mem_singleton] at ht
      subst ht
      exact ⟨rfl, rfl, reqBytes2, rfl, by decide, isPrimeBytes, 2, 0, by decide⟩)
    (fun t ht => by
      rw [List.mem_singleton] at ht
      subst ht
      exact ⟨rfl, rfl, reqBytes2, rfl, by decide, isPrimeBytes, 2, 0, by decide⟩)
    0 0 (by simp) (by simp) rfl

/-- C8: every response serialization is nonempty and ends in the newline
byte; consequently the emptiness guard of the loop never suppresses a write
(the loop equals its guard-free variant), and a script of conforming
frames gets exactly one response per frame. -/
theorem c8_nonempty_newline :
    (∀ r : Response, r.into_bytes ≠ [] ∧ ∃ ys, r.into_bytes = ys ++ [10]) ∧
    (∀ (fsq : ℤ → ℤ) (toF64 : ℤ → ℤ → F64) (steps : List Step),
      process fsq toF64 steps = processNoGuard fsq toF64 steps) ∧
    (∀ (fsq : ℤ → ℤ) (toF64 : ℤ → ℤ → F64) (steps : List Step),
      (∀ t ∈ steps, GoodStep t) →
      (process fsq toF64 steps).written.length = steps.length) := by
  refine ⟨fun r => ⟨into_bytes_ne_nil r, into_bytes_newline r⟩, ?_, ?_⟩
  · intro fsq toF64 steps
    exact process_noGuard_eq fsq toF64 steps
  · intro fsq toF64 steps h
    have e : process fsq toF64 steps =
        ⟨steps.map (fun t => respOf fsq toF64 t.line), ConnOutcome.done⟩ := by
      have hh := process_good_append fsq toF64 steps [] h
      simpa [process] using hh
    rw [e]
    simp

/-- C8 witness: a one-frame conforming script writes exactly one
response. -/
theorem c8_witness :
    (process fsqEx toF64ex [⟨ReadEv.ok reqBytes2, false, false⟩]).written.length =
      ([⟨ReadEv.ok reqBytes2, false, false⟩] : List Step).length :=
  c8_nonempty_newline.2.2 fsqEx toF64ex [⟨ReadEv.ok reqBytes2, false, false⟩]
    (fun t ht => by
      rw [List.mem_singleton] at ht
      subst ht
      exact ⟨rfl, rfl, reqBytes2, rfl, by decide, isPrimeBytes, 2, 0, by decide⟩)
